import Mathlib

/-!
Shallow embedding of the vector similarity store of the Ai-search
repository (`src/vector_store.py`) and proofs of the specification
claims about it.

Modelling conventions:

* Embedding vectors (numpy float32 arrays) become `List ℚ`; exact
  rational arithmetic stands in for IEEE floats.
* The faiss `IndexFlatL2` becomes the list of stored vectors
  (`Store.index`); `ntotal` is its length.  `IndexFlatL2.search`
  returns the `k` nearest stored vectors by ascending squared L2
  distance, modelled by sorting all `(distance, position)` pairs with a
  stable merge sort and taking `k` (`candidate_pairs`).
* The module-level metadata list `_meta` of python dicts
  `{"id": .., "filename": .., "text": ..}` becomes
  `Store.meta : List ResumeRecord`.
* The python exception raised before any mutation (the faiss dimension
  assertion inside `index.add`) becomes `Except StoreError`.
* File persistence (`_save_index` / `_save_meta`) stores no state the
  claims inspect; where a claim speaks about persistence writes, the
  operation additionally reports whether its code path reaches the save
  calls (`DeleteOutcome.persisted`).
* The external embedding provider `embedder.embed_text` is an opaque
  parameter `embed : String → List ℚ` of the operations that call it.
-/

/-- Configured vector dimension, `DIMENSION = 384` in `src/vector_store.py`. -/
def DIMENSION : Nat := 384

/-- One metadata record: the python dict `{"id", "filename", "text"}` kept
in `_meta` (`src/vector_store.py`).  `id` is the positional offset into
the index, `text` the 1000-character preview. -/
structure ResumeRecord where
  id : Nat
  filename : String
  text : String
deriving DecidableEq, Repr

/-- In-memory state of the vector store: the faiss index contents
(`_index`, as the list of stored vectors) and the metadata list
(`_meta`). -/
structure Store where
  index : List (List ℚ)
  meta : List ResumeRecord
deriving DecidableEq, Repr

/-- The fresh state: `faiss.IndexFlatL2(DIMENSION)` with no vectors and an
empty metadata list. -/
def emptyStore : Store := ⟨[], []⟩

/-- Errors an operation can raise.  `dimensionMismatch` models the faiss
assertion in `index.add` when the vector length differs from the index
dimension; it fires before any state is mutated. -/
inductive StoreError where
  | dimensionMismatch
deriving DecidableEq, Repr

/-- Model of `add_resume(filename, text, embedding)`
(`src/vector_store.py` lines 37-49): append the vector to the index and
append a record whose `id` is `index.ntotal - 1` after the add, i.e. the
old vector count, and whose `text` is `text[:1000]`.  A vector of the
wrong length makes `index.add` raise before anything is mutated. -/
def add_resume (filename text : String) (embedding : List ℚ) (s : Store) :
    Except StoreError Store :=
  if embedding.length = DIMENSION then
    .ok { index := s.index ++ [embedding],
          meta := s.meta ++ [{ id := s.index.length, filename := filename,
                               text := text.take 1000 }] }
  else
    .error .dimensionMismatch

/-- The module state after an `add_resume` call: on an exception the
state is unchanged. -/
def add_post (filename text : String) (embedding : List ℚ) (s : Store) : Store :=
  match add_resume filename text embedding s with
  | .ok s' => s'
  | .error _ => s

/-- Unrounded similarity score of a squared L2 distance:
`1 / (1 + dist)` in `search_resumes`. -/
def rawScore (d : ℚ) : ℚ := 1 / (1 + d)

/-- Rounding to four decimal digits, python `round(x, 4)`. -/
def roundTo4 (x : ℚ) : ℚ := ((round (x * 10000) : ℤ) : ℚ) / 10000

/-- The score `round(float(1 / (1 + dist)), 4)` assigned to a candidate at
squared distance `dist` (`src/vector_store.py` line 76). -/
def scoreOfDist (d : ℚ) : ℚ := roundTo4 (rawScore d)

/-- Squared L2 distance between two vectors, the distance returned by
`faiss.IndexFlatL2.search`. -/
def sqDist (u v : List ℚ) : ℚ :=
  ((List.zipWith (fun a b => a - b) u v).map (fun x => x * x)).sum

/-- Model of `index.search(vec, k)` before taking `k`: all
`(distance, position)` pairs of the stored vectors, in ascending distance
order. -/
def candidate_pairs (q : List ℚ) (s : Store) : List (ℚ × Nat) :=
  ((s.index.enum).map (fun p => (sqDist q p.2, p.1))).mergeSort
    (fun a b => decide (a.1 ≤ b.1))

/-- One search hit: the copy of a catalog record made by
`entry = meta[idx].copy()` together with the `"score"` key added by
`entry["score"] = score`. -/
structure SearchResult where
  entry : ResumeRecord
  score : ℚ
deriving DecidableEq, Repr

/-- The result-collection loop of `search_resumes`
(`src/vector_store.py` lines 73-86): walk the `(dist, idx)` pairs in
order; when `idx` is a valid metadata offset, score it, keep it if the
score meets the threshold, and stop as soon as `top_k` results have been
collected (the break is checked whether or not the candidate was kept). -/
def searchLoop (meta : List ResumeRecord) (top_k : Nat) (min_score : ℚ) :
    List (ℚ × Nat) → List SearchResult → List SearchResult
  | [], acc => acc
  | (dist, idx) :: rest, acc =>
    if h : idx < meta.length then
      let acc' := if min_score ≤ scoreOfDist dist
        then acc ++ [⟨meta.get ⟨idx, h⟩, scoreOfDist dist⟩] else acc
      if top_k ≤ acc'.length then acc'
      else searchLoop meta top_k min_score rest acc'
    else searchLoop meta top_k min_score rest acc

/-- Model of `search_resumes(query_embedding, top_k, min_score)`
(`src/vector_store.py` lines 51-89).  The state component of the result
is the module state after the call: the function only reads the index
and the metadata, so it is the input state.  `search_k = min(top_k * 5,
index.ntotal)` is the overfetch size; the collected results are finally
sorted by descending score (a stable sort, like python `list.sort`). -/
def search_resumes (query_embedding : List ℚ) (top_k : Nat) (min_score : ℚ)
    (s : Store) : List SearchResult × Store :=
  if s.index.length = 0 then ([], s)
  else
    let search_k := min (top_k * 5) s.index.length
    let results := searchLoop s.meta top_k min_score
        ((candidate_pairs query_embedding s).take search_k) []
    (results.mergeSort (fun a b => decide (b.score ≤ a.score)), s)

/-- Model of `get_all_resumes()`: the metadata list itself. -/
def get_all_resumes (s : Store) : List ResumeRecord := s.meta

/-- Outcome of a `delete_resume` call: the returned boolean, the module
state afterwards, and whether the code path reached the
`_save_index()` / `_save_meta()` calls. -/
structure DeleteOutcome where
  found : Bool
  store : Store
  persisted : Bool
deriving DecidableEq, Repr

/-- The reassignment `entry["id"] = i` done by the rebuild loop of
`delete_resume` over `enumerate(new_meta)`: record `i` of the surviving
list gets `id := n + i` (called with `n = 0`). -/
def reindexFrom (n : Nat) : List ResumeRecord → List ResumeRecord
  | [] => []
  | r :: rs => { r with id := n } :: reindexFrom (n + 1) rs

/-- Model of `delete_resume(filename)` (`src/vector_store.py` lines
94-114): filter the metadata by filename; if nothing was removed return
`False` without touching anything; otherwise rebuild the index from
scratch by re-embedding each surviving record's preview `text` in
order, reassign ids `0..len-1`, persist, and return `True`. -/
def delete_resume (embed : String → List ℚ) (filename : String) (s : Store) :
    DeleteOutcome :=
  let new_meta := s.meta.filter (fun m => decide (m.filename ≠ filename))
  if new_meta.length = s.meta.length then
    ⟨false, s, false⟩
  else
    ⟨true, { index := new_meta.map (fun e => embed e.text),
             meta := reindexFrom 0 new_meta }, true⟩

/-- Model of `clear_all()` (`src/vector_store.py` lines 116-123): replace
the index by a fresh empty one and the metadata by `[]` (the persisted
artifact files it also removes hold no state the claims inspect). -/
def clear_all (_s : Store) : Store := emptyStore

/-- States reachable from the empty store by any sequence of
`add_resume`, `delete_resume` and `clear_all` calls.  The `del`
constructor quantifies over the external embedding function
(`embedder.embed_text`) used by the rebuild. -/
inductive Reachable : Store → Prop where
  | empty : Reachable emptyStore
  | add (filename text : String) (embedding : List ℚ) {s : Store} :
      Reachable s → Reachable (add_post filename text embedding s)
  | del (embed : String → List ℚ) (filename : String) {s : Store} :
      Reachable s → Reachable (delete_resume embed filename s).store
  | clear {s : Store} : Reachable s → Reachable (clear_all s)

/-- The catalog / index lockstep invariant of the spec:
`len(Catalog) == VectorIndex.count` and `Catalog[i].position == i`. -/
def StoreInv (s : Store) : Prop :=
  s.meta.length = s.index.length ∧
  ∀ i (h : i < s.meta.length), (s.meta.get ⟨i, h⟩).id = i

/-! ### Helper lemmas -/

theorem reindexFrom_length (n : Nat) (l : List ResumeRecord) :
    (reindexFrom n l).length = l.length := by
  induction l generalizing n with
  | nil => rfl
  | cons r rs ih => simp [reindexFrom, ih]

theorem reindexFrom_get_id (n : Nat) (l : List ResumeRecord) (i : Nat)
    (h : i < (reindexFrom n l).length) :
    ((reindexFrom n l).get ⟨i, h⟩).id = n + i := by
  induction l generalizing n i with
  | nil => simp [reindexFrom] at h
  | cons r rs ih =>
    cases i with
    | zero => simp [reindexFrom]
    | succ j =>
      have hj : j < (reindexFrom (n + 1) rs).length := by
        simpa [reindexFrom] using h
      have := ih (n + 1) j hj
      simp only [reindexFrom, List.get_eq_getElem, List.getElem_cons_succ] at this ⊢
      omega

theorem reindexFrom_mem {n : Nat} {l : List ResumeRecord} {r : ResumeRecord}
    (h : r ∈ reindexFrom n l) :
    ∃ r' ∈ l, r.filename = r'.filename ∧ r.text = r'.text := by
  induction l generalizing n with
  | nil => simp [reindexFrom] at h
  | cons a as ih =>
    simp only [reindexFrom, List.mem_cons] at h
    rcases h with h | h
    · exact ⟨a, List.mem_cons_self _ _, by simp [h]⟩
    · obtain ⟨r', hr', hh⟩ := ih h
      exact ⟨r', List.mem_cons_of_mem _ hr', hh⟩

theorem reindexFrom_map (n : Nat) (l : List ResumeRecord) :
    (reindexFrom n l).map (fun r => (r.filename, r.text)) =
      l.map (fun r => (r.filename, r.text)) := by
  induction l generalizing n with
  | nil => rfl
  | cons a as ih => simp [reindexFrom, ih]

theorem reindexFrom_map_id (n : Nat) (l : List ResumeRecord) :
    (reindexFrom n l).map (fun r => r.id) = List.range' n l.length := by
  induction l generalizing n with
  | nil => rfl
  | cons a as ih => simp [reindexFrom, ih, List.range'_succ]

theorem sqDist_nonneg (u v : List ℚ) : 0 ≤ sqDist u v := by
  unfold sqDist
  apply List.sum_nonneg
  intro x hx
  simp only [List.mem_map] at hx
  obtain ⟨a, _, rfl⟩ := hx
  exact mul_self_nonneg a

theorem roundTo4_mono {x y : ℚ} (h : x ≤ y) : roundTo4 x ≤ roundTo4 y := by
  unfold roundTo4
  have h1 : round (x * 10000) ≤ round (y * 10000) := by
    rw [round_eq, round_eq]
    exact Int.floor_mono (by linarith)
  have h2 : ((round (x * 10000) : ℤ) : ℚ) ≤ ((round (y * 10000) : ℤ) : ℚ) :=
    Int.cast_le.mpr h1
  have h10 : (0:ℚ) ≤ 10000 := by norm_num
  exact div_le_div_of_nonneg_right h2 h10

theorem scoreOfDist_antitone {d₁ d₂ : ℚ} (h0 : 0 ≤ d₁) (h : d₁ ≤ d₂) :
    scoreOfDist d₂ ≤ scoreOfDist d₁ := by
  apply roundTo4_mono
  unfold rawScore
  exact one_div_le_one_div_of_le (by linarith) (by linarith)

/-! ### The claims -/

/-- C7: adding an embedding whose length differs from the configured
dimension 384 fails with a dimension-mismatch error and leaves the
index and catalog unchanged (no record is appended). -/
theorem C7_add_dimension_mismatch (f t : String) (e : List ℚ) (s : Store)
    (h : e.length ≠ DIMENSION) :
    add_resume f t e s = .error .dimensionMismatch ∧ add_post f t e s = s := by
  constructor
  · simp [add_resume, h]
  · simp [add_post, add_resume, h]

/-- Witness for C7 at a concrete input: the empty embedding on the empty
store. -/
theorem C7_add_dimension_mismatch_witness :
    add_resume "a.txt" "text" [] emptyStore = .error .dimensionMismatch ∧
      add_post "a.txt" "text" [] emptyStore = emptyStore :=
  C7_add_dimension_mismatch "a.txt" "text" [] emptyStore (by decide)

/-- C8: if the store holds zero vectors, `search_resumes` returns the
empty sequence whatever the query, `top_k` and `min_score` are. -/
theorem C8_search_empty_store (q : List ℚ) (top_k : Nat) (min_score : ℚ)
    (s : Store) (h : s.index.length = 0) :
    (search_resumes q top_k min_score s).1 = [] := by
  simp [search_resumes, h]

/-- Witness for C8: scenario A, an empty store searched with
`top_k = 5`, `min_score = 0.4`. -/
theorem C8_search_empty_store_witness :
    (search_resumes [1, 2] 5 (4/10) emptyStore).1 = [] :=
  C8_search_empty_store [1, 2] 5 (4/10) emptyStore rfl

/-- C9: `clear_all` empties both the index and the catalog, and it is
idempotent: running it twice from any state yields the same state as
running it once. -/
theorem C9_clear_all (s : Store) :
    (clear_all s).index.length = 0 ∧ get_all_resumes (clear_all s) = [] ∧
      clear_all (clear_all s) = clear_all s :=
  ⟨rfl, rfl, rfl⟩

/-- C6: deleting a filename with no matching record returns `False` and
leaves the whole state unchanged, without reaching the persistence
writes. -/
theorem C6_delete_not_found (embed : String → List ℚ) (f : String) (s : Store)
    (h : ∀ r ∈ s.meta, r.filename ≠ f) :
    delete_resume embed f s = ⟨false, s, false⟩ := by
  have hfilter : s.meta.filter (fun m => decide (m.filename ≠ f)) = s.meta :=
    List.filter_eq_self.mpr (fun r hr => by simpa using h r hr)
  simp only [delete_resume, hfilter]
  simp [h]

/-- Witness for C6: deleting `"missing.txt"` from a one-record store. -/
theorem C6_delete_not_found_witness :
    delete_resume (fun _ => []) "missing.txt" ⟨[[1]], [⟨0, "a.txt", "t"⟩]⟩ =
      ⟨false, ⟨[[1]], [⟨0, "a.txt", "t"⟩]⟩, false⟩ :=
  C6_delete_not_found (fun _ => []) "missing.txt" ⟨[[1]], [⟨0, "a.txt", "t"⟩]⟩
    (by decide)

/-- A concrete 384-dimensional embedding vector. -/
def vZero : List ℚ := List.replicate DIMENSION 0

/-- C3 (code divergence): `add_resume` performs no duplicate-filename
check.  Adding filename `"a.txt"` twice succeeds — no error of any kind
is raised — and afterwards the index holds two vectors and the catalog
two records sharing that filename, instead of the second add being
rejected with a duplicate error and the state left unchanged. -/
theorem C3_duplicate_add_succeeds :
    ((add_resume "a.txt" "x" vZero emptyStore).bind
        (add_resume "a.txt" "y" vZero)).map
        (fun s => (s.index.length, s.meta.map (fun r => (r.id, r.filename)))) =
      Except.ok (2, [(0, "a.txt"), (1, "a.txt")]) := by
  have hlen : vZero.length = DIMENSION := by simp [vZero]
  simp [add_resume, hlen, emptyStore, Except.bind, Except.map]

/-- C1: every state reachable from the empty store by `add_resume`,
`delete_resume` and `clear_all` calls has its catalog length equal to
the index's vector count, and the record at offset `i` carries
`id = i`. -/
theorem C1_reachable_invariant (s : Store) (h : Reachable s) : StoreInv s := by
  induction h with
  | empty =>
    refine ⟨rfl, ?_⟩
    intro i hi
    simp [emptyStore] at hi
  | add f t e _ ih =>
    rename_i s' _
    by_cases hdim : e.length = DIMENSION
    · have hpost : add_post f t e s' =
          { index := s'.index ++ [e],
            meta := s'.meta ++ [{ id := s'.index.length, filename := f,
                                  text := t.take 1000 }] } := by
        simp [add_post, add_resume, hdim]
      rw [hpost]
      obtain ⟨h1, h2⟩ := ih
      refine ⟨by simp [h1], ?_⟩
      intro i hi
      simp only [List.length_append, List.length_cons, List.length_nil] at hi
      rw [List.get_eq_getElem]
      by_cases hlt : i < s'.meta.length
      · rw [List.getElem_append_left hlt]
        have := h2 i hlt
        rw [List.get_eq_getElem] at this
        exact this
      · have hle : s'.meta.length ≤ i := le_of_not_lt hlt
        have hieq : i = s'.meta.length := by omega
        rw [List.getElem_append_right hle]
        simp only [List.getElem_singleton]
        omega
    · have hpost : add_post f t e s' = s' := by
        simp [add_post, add_resume, hdim]
      rw [hpost]
      exact ih
  | del embed f _ ih =>
    simp only [delete_resume]
    split
    · exact ih
    · refine ⟨?_, ?_⟩
      · simp [reindexFrom_length]
      · intro i hi
        have := reindexFrom_get_id 0 _ i hi
        simpa using this
  | clear _ ih =>
    refine ⟨rfl, ?_⟩
    intro i hi
    simp [clear_all, emptyStore] at hi

/-- Witness for C1: the invariant at a concrete reachable state, one
record added to the empty store. -/
theorem C1_reachable_invariant_witness :
    StoreInv (add_post "r1.txt" "t" vZero emptyStore) :=
  C1_reachable_invariant _ (Reachable.add "r1.txt" "t" vZero Reachable.empty)

/-- C2: when some record carries filename `f`, `delete_resume f` returns
`True`; afterwards no record carries `f`; the surviving records keep
their original `(filename, text)` data in the original relative order;
the `id` fields are reindexed `0..len-1`; and the index is rebuilt by
re-embedding each surviving record's preview text in catalog order. -/
theorem C2_delete_found (embed : String → List ℚ) (f : String) (s : Store)
    (h : ∃ r ∈ s.meta, r.filename = f) :
    (delete_resume embed f s).found = true ∧
    (∀ r ∈ (delete_resume embed f s).store.meta, r.filename ≠ f) ∧
    (delete_resume embed f s).store.meta.map (fun r => (r.filename, r.text)) =
      (s.meta.filter (fun r => decide (r.filename ≠ f))).map
        (fun r => (r.filename, r.text)) ∧
    (delete_resume embed f s).store.meta.map (fun r => r.id) =
      List.range (delete_resume embed f s).store.meta.length ∧
    (delete_resume embed f s).store.index =
      (s.meta.filter (fun r => decide (r.filename ≠ f))).map
        (fun r => embed r.text) := by
  obtain ⟨r0, hr0, hr0f⟩ := h
  have hlt : (s.meta.filter (fun m => decide (m.filename ≠ f))).length <
      s.meta.length :=
    List.length_filter_lt_length_iff_exists.mpr ⟨r0, hr0, by simp [hr0f]⟩
  have hcond : ¬ ((s.meta.filter (fun m => decide (m.filename ≠ f))).length =
      s.meta.length) := Nat.ne_of_lt hlt
  have hd : delete_resume embed f s =
      ⟨true,
       { index := (s.meta.filter (fun m => decide (m.filename ≠ f))).map
           (fun e => embed e.text),
         meta := reindexFrom 0 (s.meta.filter (fun m => decide (m.filename ≠ f))) },
       true⟩ := by
    simp only [delete_resume]
    rw [if_neg hcond]
  refine ⟨by rw [hd], ?_, ?_, ?_, ?_⟩
  · intro r hr
    rw [hd] at hr
    obtain ⟨r', hr', hname, _⟩ := reindexFrom_mem hr
    have := (List.mem_filter.mp hr').2
    simp only [decide_eq_true_eq] at this
    rw [hname]
    exact this
  · rw [hd]
    exact reindexFrom_map 0 _
  · rw [hd]
    simp only [reindexFrom_length, reindexFrom_map_id, List.range_eq_range']
  · rw [hd]

/-- Witness for C2 at a concrete input: deleting the middle of three
records (scenario C of the spec); the first conjunct says the call
returned `True`. -/
theorem C2_delete_found_witness :
    (delete_resume (fun _ => [9])
        "b.txt" ⟨[[1], [2], [3]],
                 [⟨0, "a.txt", "ta"⟩, ⟨1, "b.txt", "tb"⟩, ⟨2, "c.txt", "tc"⟩]⟩).found
      = true :=
  (C2_delete_found (fun _ => [9]) "b.txt"
      ⟨[[1], [2], [3]],
       [⟨0, "a.txt", "ta"⟩, ⟨1, "b.txt", "tb"⟩, ⟨2, "c.txt", "tc"⟩]⟩
      ⟨⟨1, "b.txt", "tb"⟩, by simp, rfl⟩).1

/-- C5: the score assigned to a candidate at distance `d` is
`round(1/(1+d), 4)`; the unrounded score lies in `(0, 1]` for every
nonnegative distance and equals `1` exactly at distance zero; and the
(rounded) score is monotonically non-increasing in distance. -/
theorem C5_score_shape (d d' : ℚ) (hd : 0 ≤ d) (_hd' : 0 ≤ d') :
    scoreOfDist d = roundTo4 (rawScore d) ∧
    0 < rawScore d ∧ rawScore d ≤ 1 ∧ (rawScore d = 1 ↔ d = 0) ∧
    (d < d' → scoreOfDist d' ≤ scoreOfDist d) := by
  have h1 : (0:ℚ) < 1 + d := by linarith
  refine ⟨rfl, ?_, ?_, ?_, fun hlt => scoreOfDist_antitone hd hlt.le⟩
  · unfold rawScore
    positivity
  · unfold rawScore
    rw [div_le_one h1]
    linarith
  · unfold rawScore
    constructor
    · intro he
      have h2 : (1:ℚ) = 1 + d := by
        field_simp at he
        linarith
      linarith
    · intro h0
      rw [h0]
      norm_num

/-- Witness for C5 at the concrete distances 0 and 1. -/
theorem C5_score_shape_witness :
    0 < rawScore 0 ∧ scoreOfDist 1 ≤ scoreOfDist 0 :=
  ⟨(C5_score_shape 0 1 le_rfl (by norm_num)).2.1,
   (C5_score_shape 0 1 le_rfl (by norm_num)).2.2.2.2 (by norm_num)⟩

/-! ### Lemmas about the search loop -/

theorem searchLoop_mem_init (meta : List ResumeRecord) (k : Nat) (m : ℚ) :
    ∀ (cands : List (ℚ × Nat)) (acc : List SearchResult) (r : SearchResult),
      r ∈ acc → r ∈ searchLoop meta k m cands acc := by
  intro cands
  induction cands with
  | nil =>
    intro acc r hr
    simpa [searchLoop] using hr
  | cons c rest ih =>
    obtain ⟨dist, idx⟩ := c
    intro acc r hr
    by_cases hidx : idx < meta.length
    · by_cases hsc : m ≤ scoreOfDist dist
      · by_cases hk2 : k ≤ (acc ++
            [(⟨meta.get ⟨idx, hidx⟩, scoreOfDist dist⟩ : SearchResult)]).length
        · simp only [searchLoop, dif_pos hidx, if_pos hsc, if_pos hk2]
          exact List.mem_append_left _ hr
        · simp only [searchLoop, dif_pos hidx, if_pos hsc, if_neg hk2]
          exact ih _ r (List.mem_append_left _ hr)
      · by_cases hk2 : k ≤ acc.length
        · simp only [searchLoop, dif_pos hidx, if_neg hsc, if_pos hk2]
          exact hr
        · simp only [searchLoop, dif_pos hidx, if_neg hsc, if_neg hk2]
          exact ih _ r hr
    · simp only [searchLoop, dif_neg hidx]
      exact ih _ r hr

theorem searchLoop_entries (meta : List ResumeRecord) (k : Nat) (m : ℚ) :
    ∀ (cands : List (ℚ × Nat)) (acc : List SearchResult),
      (∀ r ∈ acc, r.entry ∈ meta) →
      ∀ r ∈ searchLoop meta k m cands acc, r.entry ∈ meta := by
  intro cands
  induction cands with
  | nil =>
    intro acc hacc r hr
    exact hacc r (by simpa [searchLoop] using hr)
  | cons c rest ih =>
    obtain ⟨dist, idx⟩ := c
    intro acc hacc r hr
    by_cases hidx : idx < meta.length
    · have hext : ∀ r' ∈ acc ++
          [(⟨meta.get ⟨idx, hidx⟩, scoreOfDist dist⟩ : SearchResult)],
          r'.entry ∈ meta := by
        intro r' hr'
        rcases List.mem_append.mp hr' with h | h
        · exact hacc r' h
        · have he : r' = ⟨meta.get ⟨idx, hidx⟩, scoreOfDist dist⟩ :=
            List.mem_singleton.mp h
          rw [he]
          exact List.get_mem _ _ _
      by_cases hsc : m ≤ scoreOfDist dist
      · by_cases hk2 : k ≤ (acc ++
            [(⟨meta.get ⟨idx, hidx⟩, scoreOfDist dist⟩ : SearchResult)]).length
        · simp only [searchLoop, dif_pos hidx, if_pos hsc, if_pos hk2] at hr
          exact hext r hr
        · simp only [searchLoop, dif_pos hidx, if_pos hsc, if_neg hk2] at hr
          exact ih _ hext r hr
      · by_cases hk2 : k ≤ acc.length
        · simp only [searchLoop, dif_pos hidx, if_neg hsc, if_pos hk2] at hr
          exact hacc r hr
        · simp only [searchLoop, dif_pos hidx, if_neg hsc, if_neg hk2] at hr
          exact ih _ hacc r hr
    · simp only [searchLoop, dif_neg hidx] at hr
      exact ih _ hacc r hr

theorem searchLoop_spec (meta : List ResumeRecord) (k : Nat) (m : ℚ) :
    ∀ (cands : List (ℚ × Nat)) (acc : List SearchResult),
      acc.length < k →
      List.Pairwise (fun a b : ℚ × Nat => a.1 ≤ b.1) cands →
      (∀ c ∈ cands, 0 ≤ c.1) →
      (∀ r ∈ acc, ∀ c ∈ cands, scoreOfDist c.1 ≤ r.score) →
      (searchLoop meta k m cands acc).length ≤ k ∧
      (∀ r ∈ searchLoop meta k m cands acc, r ∈ acc ∨ m ≤ r.score) ∧
      (∀ d i, (d, i) ∈ cands → ∀ hi : i < meta.length, m ≤ scoreOfDist d →
        ((⟨meta.get ⟨i, hi⟩, scoreOfDist d⟩ : SearchResult) ∈
            searchLoop meta k m cands acc ∨
         ((searchLoop meta k m cands acc).length = k ∧
          ∀ r ∈ searchLoop meta k m cands acc,
            r ∈ acc ∨ scoreOfDist d ≤ r.score))) := by
  intro cands
  induction cands with
  | nil =>
    intro acc hlt _ _ _
    simp only [searchLoop]
    exact ⟨hlt.le, fun r hr => Or.inl hr, by intro d i hdi; simp at hdi⟩
  | cons c rest ih =>
    obtain ⟨dist, idx⟩ := c
    intro acc hlt hpw hnn hacc
    have hpwRest := hpw.of_cons
    have hnnRest : ∀ c' ∈ rest, 0 ≤ c'.1 :=
      fun c' hc' => hnn c' (List.mem_cons_of_mem _ hc')
    have hdist0 : 0 ≤ dist := hnn (dist, idx) (List.mem_cons_self _ _)
    have hscHead : ∀ c' ∈ rest, scoreOfDist c'.1 ≤ scoreOfDist dist :=
      fun c' hc' =>
        scoreOfDist_antitone hdist0 ((List.pairwise_cons.mp hpw).1 c' hc')
    by_cases hidx : idx < meta.length
    · by_cases hsc : m ≤ scoreOfDist dist
      · by_cases hk2 : k ≤ (acc ++
            [(⟨meta.get ⟨idx, hidx⟩, scoreOfDist dist⟩ : SearchResult)]).length
        · simp only [searchLoop, dif_pos hidx, if_pos hsc, if_pos hk2]
          have hlen : (acc ++
              [(⟨meta.get ⟨idx, hidx⟩, scoreOfDist dist⟩ :
                SearchResult)]).length = k := by
            simp only [List.length_append, List.length_cons,
              List.length_nil] at hk2 ⊢
            omega
          refine ⟨hlen.le, ?_, ?_⟩
          · intro r hr
            rcases List.mem_append.mp hr with h | h
            · exact Or.inl h
            · right
              rw [List.mem_singleton.mp h]
              exact hsc
          · intro d i hdi hi hms
            rcases List.mem_cons.mp hdi with hhd | htl
            · left
              have hd2 : d = dist := congrArg Prod.fst hhd
              have hi2 : i = idx := congrArg Prod.snd hhd
              subst hd2
              subst hi2
              exact List.mem_append_right _ (List.mem_singleton.mpr rfl)
            · right
              refine ⟨hlen, ?_⟩
              intro r hr
              rcases List.mem_append.mp hr with h | h
              · exact Or.inl h
              · right
                rw [List.mem_singleton.mp h]
                exact hscHead (d, i) htl
        · simp only [searchLoop, dif_pos hidx, if_pos hsc, if_neg hk2]
          have hlt2 : (acc ++
              [(⟨meta.get ⟨idx, hidx⟩, scoreOfDist dist⟩ :
                SearchResult)]).length < k := by
            simp only [List.length_append, List.length_cons,
              List.length_nil] at hk2 ⊢
            omega
          have hacc2 : ∀ r ∈ acc ++
              [(⟨meta.get ⟨idx, hidx⟩, scoreOfDist dist⟩ : SearchResult)],
              ∀ c' ∈ rest, scoreOfDist c'.1 ≤ r.score := by
            intro r hr c' hc'
            rcases List.mem_append.mp hr with h | h
            · exact hacc r h c' (List.mem_cons_of_mem _ hc')
            · rw [List.mem_singleton.mp h]
              exact hscHead c' hc'
          obtain ⟨IH1, IH2, IH3⟩ := ih _ hlt2 hpwRest hnnRest hacc2
          refine ⟨IH1, ?_, ?_⟩
          · intro r hr
            rcases IH2 r hr with h | h
            · rcases List.mem_append.mp h with h2 | h2
              · exact Or.inl h2
              · right
                rw [List.mem_singleton.mp h2]
                exact hsc
            · exact Or.inr h
          · intro d i hdi hi hms
            rcases List.mem_cons.mp hdi with hhd | htl
            · left
              have hd2 : d = dist := congrArg Prod.fst hhd
              have hi2 : i = idx := congrArg Prod.snd hhd
              subst hd2
              subst hi2
              exact searchLoop_mem_init meta k m rest _ _
                (List.mem_append_right _ (List.mem_singleton.mpr rfl))
            · rcases IH3 d i htl hi hms with h | hR
              · exact Or.inl h
              · right
                refine ⟨hR.1, ?_⟩
                intro r hr
                rcases hR.2 r hr with h2 | h2
                · rcases List.mem_append.mp h2 with h3 | h3
                  · exact Or.inl h3
                  · right
                    rw [List.mem_singleton.mp h3]
                    exact hscHead (d, i) htl
                · exact Or.inr h2
      · have hk3 : ¬ k ≤ acc.length := by omega
        simp only [searchLoop, dif_pos hidx, if_neg hsc, if_neg hk3]
        have hacc2 : ∀ r ∈ acc, ∀ c' ∈ rest, scoreOfDist c'.1 ≤ r.score :=
          fun r hr c' hc' => hacc r hr c' (List.mem_cons_of_mem _ hc')
        obtain ⟨IH1, IH2, IH3⟩ := ih acc hlt hpwRest hnnRest hacc2
        refine ⟨IH1, IH2, ?_⟩
        intro d i hdi hi hms
        rcases List.mem_cons.mp hdi with hhd | htl
        · have hd2 : d = dist := congrArg Prod.fst hhd
          subst hd2
          exact absurd hms hsc
        · exact IH3 d i htl hi hms
    · simp only [searchLoop, dif_neg hidx]
      have hacc2 : ∀ r ∈ acc, ∀ c' ∈ rest, scoreOfDist c'.1 ≤ r.score :=
        fun r hr c' hc' => hacc r hr c' (List.mem_cons_of_mem _ hc')
      obtain ⟨IH1, IH2, IH3⟩ := ih acc hlt hpwRest hnnRest hacc2
      refine ⟨IH1, IH2, ?_⟩
      intro d i hdi hi hms
      rcases List.mem_cons.mp hdi with hhd | htl
      · have hi2 : i = idx := congrArg Prod.snd hhd
        subst hi2
        exact absurd hi hidx
      · exact IH3 d i htl hi hms

theorem candidate_pairs_sorted (q : List ℚ) (s : Store) :
    List.Pairwise (fun a b : ℚ × Nat => a.1 ≤ b.1) (candidate_pairs q s) := by
  unfold candidate_pairs
  have h := @List.sorted_mergeSort (ℚ × Nat) (fun a b => decide (a.1 ≤ b.1))
    (by
      intro a b c hab hbc
      simp only [decide_eq_true_eq] at hab hbc ⊢
      exact le_trans hab hbc)
    (by
      intro a b
      simp only [Bool.or_eq_true, decide_eq_true_eq]
      exact le_total a.1 b.1)
    ((s.index.enum).map (fun p => (sqDist q p.2, p.1)))
  exact h.imp (fun hab => by simpa using hab)

theorem candidate_pairs_nonneg (q : List ℚ) (s : Store) :
    ∀ c ∈ candidate_pairs q s, 0 ≤ c.1 := by
  intro c hc
  unfold candidate_pairs at hc
  have hc2 : c ∈ (s.index.enum).map (fun p => (sqDist q p.2, p.1)) :=
    (List.mergeSort_perm _ _).mem_iff.mp hc
  obtain ⟨p, _, hp⟩ := List.mem_map.mp hc2
  rw [← hp]
  exact sqDist_nonneg q p.2

theorem search_resumes_fst_eq (q : List ℚ) (top_k : Nat) (min_score : ℚ)
    (s : Store) (hne : s.index.length ≠ 0) :
    (search_resumes q top_k min_score s).1 =
      (searchLoop s.meta top_k min_score
        ((candidate_pairs q s).take (min (top_k * 5) s.index.length))
        []).mergeSort (fun a b => decide (b.score ≤ a.score)) := by
  simp [search_resumes, hne]

/-- C4: on a non-empty store with `top_k ≥ 1`, every returned result
scores at least `min_score`; at most `top_k` results are returned; and
every candidate of the overfetched set (the `min(top_k*5, N)` nearest
vectors) whose score meets the threshold is either in the results or
was cut off because `top_k` results had already been collected at an
equal-or-smaller distance (so at an equal-or-greater score). -/
theorem C4_search_threshold (q : List ℚ) (top_k : Nat) (min_score : ℚ)
    (s : Store) (hk : 1 ≤ top_k) (hne : s.index.length ≠ 0) :
    (∀ r ∈ (search_resumes q top_k min_score s).1, min_score ≤ r.score) ∧
    (search_resumes q top_k min_score s).1.length ≤ top_k ∧
    (∀ d i,
      (d, i) ∈ (candidate_pairs q s).take (min (top_k * 5) s.index.length) →
      ∀ hi : i < s.meta.length, min_score ≤ scoreOfDist d →
        ((⟨s.meta.get ⟨i, hi⟩, scoreOfDist d⟩ : SearchResult) ∈
            (search_resumes q top_k min_score s).1 ∨
         ((search_resumes q top_k min_score s).1.length = top_k ∧
          ∀ r ∈ (search_resumes q top_k min_score s).1,
            scoreOfDist d ≤ r.score))) := by
  have hres := search_resumes_fst_eq q top_k min_score s hne
  set cands := (candidate_pairs q s).take (min (top_k * 5) s.index.length)
    with hc
  set L := searchLoop s.meta top_k min_score cands [] with hL
  have hperm := List.mergeSort_perm L (fun a b => decide (b.score ≤ a.score))
  have hpw : List.Pairwise (fun a b : ℚ × Nat => a.1 ≤ b.1) cands :=
    List.Pairwise.sublist (List.take_sublist _ _) (candidate_pairs_sorted q s)
  have hnn : ∀ c ∈ cands, 0 ≤ c.1 := fun c hcm =>
    candidate_pairs_nonneg q s c ((List.take_sublist _ _).subset hcm)
  have h0 : ([] : List SearchResult).length < top_k := by simpa using hk
  obtain ⟨S1, S2, S3⟩ := searchLoop_spec s.meta top_k min_score cands [] h0
    hpw hnn (by intro r hr; simp at hr)
  refine ⟨?_, ?_, ?_⟩
  · intro r hr
    rw [hres] at hr
    rcases S2 r (hperm.mem_iff.mp hr) with h | h
    · simp at h
    · exact h
  · rw [hres, hperm.length_eq]
    exact S1
  · intro d i hdi hi hms
    rcases S3 d i hdi hi hms with h | hR
    · left
      rw [hres]
      exact hperm.mem_iff.mpr h
    · right
      refine ⟨by rw [hres, hperm.length_eq]; exact hR.1, ?_⟩
      intro r hr
      rw [hres] at hr
      rcases hR.2 r (hperm.mem_iff.mp hr) with h2 | h2
      · simp at h2
      · exact h2

/-- Witness for C4: a one-vector store searched with `top_k = 1`. -/
theorem C4_search_threshold_witness :
    (search_resumes [0] 1 (1/2) ⟨[[0]], [⟨0, "a.txt", "t"⟩]⟩).1.length ≤ 1 :=
  (C4_search_threshold [0] 1 (1/2) ⟨[[0]], [⟨0, "a.txt", "t"⟩]⟩
    (by norm_num) (by decide)).2.1

/-- C10: `search_resumes` leaves the store (index and catalog)
unchanged, and every emitted result carries a copy of a catalog record
in its `entry` field, the added `score` living in a separate field of
the copy. -/
theorem C10_search_frame (q : List ℚ) (top_k : Nat) (min_score : ℚ)
    (s : Store) :
    (search_resumes q top_k min_score s).2 = s ∧
    ∀ r ∈ (search_resumes q top_k min_score s).1, r.entry ∈ s.meta := by
  constructor
  · by_cases h : s.index.length = 0 <;> simp [search_resumes, h]
  · intro r hr
    by_cases h : s.index.length = 0
    · simp [search_resumes, h] at hr
    · rw [search_resumes_fst_eq q top_k min_score s h] at hr
      have hr2 := (List.mergeSort_perm _ _).mem_iff.mp hr
      exact searchLoop_entries s.meta top_k min_score _ []
        (by intro r' hr'; simp at hr') r hr2
